import Mathlib

/-!
Shallow embedding of the time-interval algebra of `orekitfactory`
(`src/orekitfactory/time/_dateinterval.py` and
`src/orekitfactory/time/_dateintervallist.py`).

Modelling conventions:
* `AbsoluteDate` (an opaque totally ordered instant) is modelled as `Int`;
  `a.compareTo(b)` is `compareTo a b` (the sign of the comparison),
  `a.durationFrom(b)` is `a - b`, and `a.shiftedBy(s)` is `a + s`.
* `DateInterval.__init__` is `DateInterval.make`, which swaps a reversed
  pair exactly like the source constructor.
* The duck-typed `other` argument of the containment helpers (a date or an
  interval) is the sum type `Endpoint`; the `None` branches of the source,
  which just return `False`, are outside every claim and are not modelled.
* Raising an exception is modelled by returning `none`.
* Python's stable `list.sort()` is modelled by insertion sort over the total
  order of `DateInterval.__lt__`/`__eq__`; since equal intervals are equal
  values of the embedding, any sorting algorithm produces the same list.
* The two-pointer `while` loop of `list_intersection` is modelled with a
  fuel argument equal to the sum of the lengths of the two lists; every
  iteration of the source loop consumes one element of one list, so the
  fuel never runs out before the loop terminates.
-/

/-- Sign of the comparison of two instants: the embedding of
`AbsoluteDate.compareTo`. -/
def compareTo (a b : Int) : Int :=
  if a < b then -1 else if a = b then 0 else 1

/-- The `DateInterval` value: a pair of instants. The source class invariant
(start below stop) is established by the constructor `DateInterval.make`,
not baked into the structure, so that the constructor's swap policy is a
provable fact rather than an assumption. -/
structure DateInterval where
  start : Int
  stop : Int
deriving DecidableEq

/-- Embedding of `DateInterval.__init__`: a reversed pair of endpoints is
silently swapped. -/
def DateInterval.make (t0 t1 : Int) : DateInterval :=
  if compareTo t0 t1 > 0 then ⟨t1, t0⟩ else ⟨t0, t1⟩

/-- Embedding of `DateInterval.pad`. `duration_secs` is `stop - start`; the
`ValueError` raised when the negative pad would invert the interval is
`none`. The `timedelta`/`float` coercion of the source collapses in the
integer time model. -/
def DateInterval.pad (self : DateInterval) (time : Int) : Option DateInterval :=
  let padSeconds := time
  if 2 * padSeconds < -(self.stop - self.start) then none
  else some (DateInterval.make (self.start + -padSeconds) (self.stop + padSeconds))

/-- Embedding of `DateInterval.overlaps` (the `other is None` branch, which
returns `False`, is not modelled). -/
def DateInterval.overlaps (self other : DateInterval)
    (startInclusive stopInclusive : Bool) : Bool :=
  let v0 : Int := if startInclusive then 0 else -1
  let v1 : Int := if stopInclusive then 0 else 1
  decide (compareTo self.start other.stop ≤ v0) &&
    decide (compareTo self.stop other.start ≥ v1)

/-- Embedding of `DateInterval.union`. -/
def DateInterval.union (self other : DateInterval) : DateInterval :=
  let t0 := if compareTo self.start other.start ≤ 0 then self.start else other.start
  let t1 := if compareTo self.stop other.stop ≥ 0 then self.stop else other.stop
  DateInterval.make t0 t1

/-- Embedding of `DateInterval.intersect`: `none` when there is no
intersection. -/
def DateInterval.intersect (self other : DateInterval)
    (endpoint_inclusive : Bool) : Option DateInterval :=
  let t0 := if compareTo self.start other.start ≥ 0 then self.start else other.start
  let t1 := if compareTo self.stop other.stop ≤ 0 then self.stop else other.stop
  let c : Int := if endpoint_inclusive then 1 else 0
  if compareTo t0 t1 < c then some (DateInterval.make t0 t1) else none

/-- The duck-typed query argument of the containment helpers: a single date
or an interval (the tagged-variant replacement for the source's
`isinstance` dispatch). -/
inductive Endpoint where
  | point (d : Int)
  | span (i : DateInterval)
deriving DecidableEq

/-- Embedding of the free function `is_contained_in`. -/
def is_contained_in (other : Endpoint) (start stop : Int)
    (startInclusive stopInclusive : Bool) : Bool :=
  let v0 : Int := if startInclusive then 0 else -1
  let v1 : Int := if stopInclusive then 0 else 1
  match other with
  | .span i =>
      decide (compareTo start i.start ≤ v0) && decide (compareTo stop i.stop ≥ v1)
  | .point d =>
      decide (compareTo start d ≤ v0) && decide (compareTo stop d ≥ v1)

/-- Embedding of the free function `is_strictly_before`. Note that the body
of the source function compares `stop` against the start of `other`, i.e.
it decides whether the interval is strictly before `other` — the opposite
of what its own docstring says. -/
def is_strictly_before (other : Endpoint) (start stop : Int) : Bool :=
  match other with
  | .span i => decide (compareTo stop i.start < 0)
  | .point d => decide (compareTo stop d < 0)

/-- Embedding of the free function `is_strictly_after`: whether the interval
is strictly after `other` (again the opposite of the source docstring). -/
def is_strictly_after (other : Endpoint) (start stop : Int) : Bool :=
  match other with
  | .span i => decide (compareTo start i.stop > 0)
  | .point d => decide (compareTo start d > 0)

/-- The `DateIntervalList` storage: the flat alternating tuple of boundary
instants `__dates`. -/
structure DateIntervalList where
  dates : List Int
deriving DecidableEq

/-- Embedding of `DateIntervalList.__getitem__`/`__iter__` applied to every
index: each stored pair is turned into a `DateInterval` through the class
constructor. -/
def pairup : List Int → List DateInterval
  | s :: e :: rest => DateInterval.make s e :: pairup rest
  | _ => []

/-- Embedding of `DateIntervalList._flatten`: emit each interval's
boundaries in order. -/
def flattenIntervals : List DateInterval → List Int
  | [] => []
  | i :: rest => i.start :: i.stop :: flattenIntervals rest

/-- The total order `DateInterval.__lt__`-or-`__eq__` used by
`combined.sort()` inside `_reduce`: by start, ties by stop. -/
def intervalLe (a b : DateInterval) : Prop :=
  a.start < b.start ∨ (a.start = b.start ∧ a.stop ≤ b.stop)

instance : DecidableRel intervalLe := fun a b => by
  unfold intervalLe; infer_instance

instance : IsTotal DateInterval intervalLe := by
  constructor
  intro a b
  unfold intervalLe
  omega

instance : IsTrans DateInterval intervalLe := by
  constructor
  intro a b c hab hbc
  unfold intervalLe at *
  omega

/-- Embedding of the merge sweep inside `DateIntervalList._reduce`: the
`while` loop always compares element `i` with element `i-1`, merging them
when they touch or overlap, so it is the fold below with the current
left element as accumulator. -/
def mergeInto (acc : DateInterval) : List DateInterval → List DateInterval
  | [] => [acc]
  | b :: rest =>
      if b.overlaps acc true true then mergeInto (acc.union b) rest
      else acc :: mergeInto b rest

/-- The merge sweep of `_reduce` over the whole sorted list. -/
def mergeSorted : List DateInterval → List DateInterval
  | [] => []
  | a :: rest => mergeInto a rest

/-- Embedding of `DateIntervalList._reduce`: sort, merge touching or
overlapping neighbours, flatten to boundary dates. -/
def reduceIntervals (l : List DateInterval) : List Int :=
  flattenIntervals (mergeSorted (List.insertionSort intervalLe l))

/-- Embedding of `DateIntervalList.__init__` for the `intervals=...`
argument (an empty collection is falsy in the source and produces the empty
tuple, which coincides with reducing or flattening the empty list). -/
def DateIntervalList.ofIntervals (intervals : List DateInterval)
    (reduce_input : Bool) : DateIntervalList :=
  if intervals.isEmpty then ⟨[]⟩
  else if reduce_input then ⟨reduceIntervals intervals⟩
  else ⟨flattenIntervals intervals⟩

/-- The stored intervals of a list, as produced by `__iter__`. -/
def DateIntervalList.intervals (lst : DateIntervalList) : List DateInterval :=
  pairup lst.dates

/-- Embedding of the `span` property: `DateInterval(dates[0], dates[-1])`;
the `IndexError` on an empty list is `none`. -/
def DateIntervalList.span (lst : DateIntervalList) : Option DateInterval :=
  match lst.dates with
  | [] => none
  | d :: rest => some (DateInterval.make d (rest.getLastD d))

/-- The scanning loop of `DateIntervalList.contains`; the `Bool` argument
records whether the current pair is the one at index `i = 0`. -/
def containsScan (other : Endpoint) (si sc : Bool) :
    Bool → List Int → Bool
  | first, s :: e :: rest =>
      if first && is_strictly_before other s e then false
      else if is_contained_in other s e si sc then true
      else if is_strictly_after other s e then false
      else containsScan other si sc false rest
  | _, _ => false

/-- Embedding of `DateIntervalList.contains`. -/
def DateIntervalList.contains (lst : DateIntervalList) (other : Endpoint)
    (startInclusive stopInclusive : Bool) : Bool :=
  containsScan other startInclusive stopInclusive true lst.dates

/-- Embedding of `DateIntervalListBuilder`: the optional bounds and the
growing boundary buffer. -/
structure DateIntervalListBuilder where
  start : Option Int
  stop : Option Int
  dates : List Int
deriving DecidableEq

/-- Embedding of `DateIntervalListBuilder.add_start`; the `ValueError` is
`none`. -/
def DateIntervalListBuilder.add_start (b : DateIntervalListBuilder)
    (date : Int) : Option DateIntervalListBuilder :=
  if b.dates.length % 2 ≠ 0 then none
  else some { b with dates := b.dates ++ [date] }

/-- The seeding step of `add_stop`: an empty buffer is first seeded with the
configured lower bound when one exists. -/
def DateIntervalListBuilder.seedForStop (b : DateIntervalListBuilder) : List Int :=
  if b.dates.isEmpty then
    match b.start with
    | some s => [s]
    | none => []
  else b.dates

/-- Embedding of `DateIntervalListBuilder.add_stop`; the `ValueError` is
`none`. -/
def DateIntervalListBuilder.add_stop (b : DateIntervalListBuilder)
    (date : Int) : Option DateIntervalListBuilder :=
  let ds := b.seedForStop
  if ds.length % 2 = 0 then none
  else some { b with dates := ds ++ [date] }

/-- Embedding of `list_union`. -/
def list_union (list1 list2 : DateIntervalList) : DateIntervalList :=
  DateIntervalList.ofIntervals (list1.intervals ++ list2.intervals) true

/-- The two-pointer sweep of `list_intersection`, with fuel (see the header
comment): each iteration of the source loop advances exactly one of the two
pointers, so fuel equal to the total number of intervals is never
exhausted. -/
def intersectSweepAux (azl : Bool) :
    Nat → List DateInterval → List DateInterval → List DateInterval
  | fuel + 1, a :: as, b :: bs =>
      let rest :=
        if compareTo a.stop b.stop < 0 then intersectSweepAux azl fuel as (b :: bs)
        else intersectSweepAux azl fuel (a :: as) bs
      match a.intersect b azl with
      | some ivl => ivl :: rest
      | none => rest
  | _, _, _ => []

/-- The sweep with its fuel instantiated, as run by `list_intersection`. -/
def intersectSweep (azl : Bool) (l1 l2 : List DateInterval) : List DateInterval :=
  intersectSweepAux azl (l1.length + l2.length) l1 l2

/-- Embedding of `list_intersection`: the results are already disjoint, so
the source builds the result with `reduce_input=False`. -/
def list_intersection (list1 list2 : DateIntervalList)
    (allow_zero_length : Bool) : DateIntervalList :=
  DateIntervalList.ofIntervals
    (intersectSweep allow_zero_length list1.intervals list2.intervals) false

/-- The tail normalization of `list_compliment`: drop the last two dates
when they are equal. Indexing `dates[-2]` on a one-element list raises
`IndexError` in the source, modelled as `none`. -/
def popTailPairIfEqual (l : List Int) : Option (List Int) :=
  match l.reverse with
  | [] => some []
  | [_] => none
  | x :: y :: rest => some (if x = y then rest.reverse else l)

/-- The parity normalization of `list_compliment`: drop a trailing unmatched
boundary. -/
def popIfOdd (l : List Int) : List Int :=
  if l.length % 2 = 0 then l else l.dropLast

/-- Embedding of `list_compliment`. A `none` span argument falls back to
the span of the input list (raising, i.e. `none`, on an empty list). -/
def list_compliment (lst : DateIntervalList) (spanArg : Option DateInterval) :
    Option DateIntervalList :=
  match (match spanArg with | some s => some s | none => lst.span) with
  | none => none
  | some spn =>
      let dates := lst.dates.filter
        (fun d => is_contained_in (.point d) spn.start spn.stop true true)
      let dates := spn.start :: (dates ++ [spn.stop])
      let dates :=
        match dates with
        | a :: b :: rest => if a = b then rest else a :: b :: rest
        | l => l
      match popTailPairIfEqual dates with
      | none => none
      | some dates => some ⟨popIfOdd dates⟩

/-- Embedding of `list_subtract`: the complement of the intersection within
the span of the first list. `list1.span` is evaluated by the source before
the complement runs, raising (`none`) on an empty first list. -/
def list_subtract (list1 list2 : DateIntervalList) : Option DateIntervalList :=
  let holes := list_intersection list1 list2 false
  match list1.span with
  | none => none
  | some s => list_compliment holes (some s)

/-- The canonical-storage invariant of the spec: even length, every pair in
order, and a strict gap between consecutive pairs. -/
def datesOk : List Int → Bool
  | [] => true
  | [_] => false
  | s :: e :: rest =>
      decide (s ≤ e) &&
        (match rest with | [] => true | s' :: _ => decide (e < s')) &&
        datesOk rest

/-- Strictly increasing list of dates (no two boundaries shared or
abutting). -/
def strictIncr : List Int → Bool
  | a :: b :: rest => decide (a < b) && strictIncr (b :: rest)
  | _ => true

/-! ### Basic facts about the embedded primitives -/

theorem compareTo_nonpos {a b : Int} : compareTo a b ≤ 0 ↔ a ≤ b := by
  unfold compareTo; split_ifs <;> omega

theorem compareTo_neg {a b : Int} : compareTo a b < 0 ↔ a < b := by
  unfold compareTo; split_ifs <;> omega

theorem compareTo_nonneg {a b : Int} : 0 ≤ compareTo a b ↔ b ≤ a := by
  unfold compareTo; split_ifs <;> omega

theorem compareTo_pos {a b : Int} : 0 < compareTo a b ↔ b < a := by
  unfold compareTo; split_ifs <;> omega

theorem compareTo_le_neg_one {a b : Int} : compareTo a b ≤ -1 ↔ a < b := by
  unfold compareTo; split_ifs <;> omega

theorem compareTo_ge_one {a b : Int} : 1 ≤ compareTo a b ↔ b < a := by
  unfold compareTo; split_ifs <;> omega

theorem compareTo_lt_one {a b : Int} : compareTo a b < 1 ↔ a ≤ b := by
  unfold compareTo; split_ifs <;> omega

theorem make_of_le {t0 t1 : Int} (h : t0 ≤ t1) : DateInterval.make t0 t1 = ⟨t0, t1⟩ := by
  unfold DateInterval.make
  rw [if_neg]
  simp only [not_lt, compareTo_nonpos]
  exact h

theorem make_of_gt {t0 t1 : Int} (h : t1 < t0) : DateInterval.make t0 t1 = ⟨t1, t0⟩ := by
  unfold DateInterval.make
  rw [if_pos]
  exact compareTo_pos.mpr h

theorem make_start_le_stop (t0 t1 : Int) :
    (DateInterval.make t0 t1).start ≤ (DateInterval.make t0 t1).stop := by
  rcases le_or_lt t0 t1 with h | h
  · rw [make_of_le h]; exact h
  · rw [make_of_gt h]; exact le_of_lt h

theorem union_spec {a b : DateInterval} (h1 : a.start ≤ b.start) (h2 : a.start ≤ a.stop) :
    (a.union b).start = a.start ∧ (a.union b).stop = max a.stop b.stop := by
  unfold DateInterval.union
  have ht0 : (if compareTo a.start b.start ≤ 0 then a.start else b.start) = a.start := by
    rw [if_pos (compareTo_nonpos.mpr h1)]
  have ht1 : (if 0 ≤ compareTo a.stop b.stop then a.stop else b.stop) = max a.stop b.stop := by
    rcases le_or_lt b.stop a.stop with h | h
    · rw [if_pos (compareTo_nonneg.mpr h), max_eq_left h]
    · rw [if_neg, max_eq_right (le_of_lt h)]
      simp only [compareTo_nonneg, not_le]
      exact h
  rw [ht0, ht1, make_of_le (le_trans h2 (le_max_left _ _))]
  exact ⟨rfl, rfl⟩

theorem overlaps_true_true {a b : DateInterval} :
    a.overlaps b true true = true ↔ (a.start ≤ b.stop ∧ b.start ≤ a.stop) := by
  unfold DateInterval.overlaps
  simp [compareTo_nonpos, compareTo_nonneg]

theorem intersect_false_spec {a b r : DateInterval} (h : a.intersect b false = some r) :
    r.start < r.stop ∧ a.start ≤ r.start ∧ b.start ≤ r.start ∧
      r.stop ≤ a.stop ∧ r.stop ≤ b.stop ∧ (r.stop = a.stop ∨ r.stop = b.stop) := by
  unfold DateInterval.intersect at h
  simp only [Bool.false_eq_true, if_false] at h
  set t0 := if 0 ≤ compareTo a.start b.start then a.start else b.start with ht0
  set t1 := if compareTo a.stop b.stop ≤ 0 then a.stop else b.stop with ht1
  by_cases hc : compareTo t0 t1 < 0
  · rw [if_pos hc] at h
    have hlt : t0 < t1 := compareTo_neg.mp hc
    have hr : r = ⟨t0, t1⟩ := by
      have := make_of_le (le_of_lt hlt)
      rw [this] at h
      exact (Option.some_injective _ h).symm
    subst hr
    refine ⟨hlt, ?_, ?_, ?_, ?_, ?_⟩ <;>
      simp only [ht0, ht1] <;> split_ifs with hh <;>
      simp_all [compareTo_nonneg, compareTo_nonpos] <;> omega
  · rw [if_neg hc] at h
    exact absurd h (by simp)

/-! ### Invariant predicates used by the structural proofs -/

/-- Every interval in the list has its start at or before its stop (true of
every `DateInterval` the source can construct). -/
def AllValid (l : List DateInterval) : Prop := ∀ i ∈ l, i.start ≤ i.stop

/-- Every interval in the list is non-degenerate. -/
def AllStrict (l : List DateInterval) : Prop := ∀ i ∈ l, i.start < i.stop

/-- Consecutive intervals leave a strict gap. -/
def GapChain (l : List DateInterval) : Prop :=
  List.Chain' (fun a b => a.stop < b.start) l

instance : DecidablePred AllValid := fun l => by unfold AllValid; infer_instance

theorem allValid_cons {a : DateInterval} {l : List DateInterval} :
    AllValid (a :: l) ↔ a.start ≤ a.stop ∧ AllValid l := by
  simp [AllValid]

/-! ### The reduction sweep maintains the canonical-storage invariant -/

theorem mergeInto_spec :
    ∀ (l : List DateInterval) (acc : DateInterval),
      acc.start ≤ acc.stop → AllValid l → List.Sorted intervalLe (acc :: l) →
      AllValid (mergeInto acc l) ∧ GapChain (mergeInto acc l) ∧
        ∃ first rest, mergeInto acc l = first :: rest ∧ first.start = acc.start
  | [], acc, hacc, _, _ => by
      refine ⟨?_, ?_, acc, [], rfl, rfl⟩
      · intro i hi
        simp only [mergeInto, List.mem_singleton] at hi
        subst hi
        exact hacc
      · simp [mergeInto, GapChain]
  | b :: rest, acc, hacc, hval, hsort => by
      have hvb : b.start ≤ b.stop := hval b (List.mem_cons_self b rest)
      have hvrest : AllValid rest := fun i hi => hval i (List.mem_cons_of_mem b hi)
      have hab : intervalLe acc b := (List.sorted_cons.mp hsort).1 b (List.mem_cons_self b rest)
      have hasb : acc.start ≤ b.start := by unfold intervalLe at hab; omega
      by_cases hov : b.overlaps acc true true = true
      · have hmeq : mergeInto acc (b :: rest) = mergeInto (acc.union b) rest := by
          simp [mergeInto, hov]
        obtain ⟨hu1, hu2⟩ := union_spec hasb hacc
        have huv : (acc.union b).start ≤ (acc.union b).stop := by
          rw [hu1, hu2]
          exact le_trans hacc (le_max_left _ _)
        have hsort' : List.Sorted intervalLe (acc.union b :: rest) := by
          rw [List.sorted_cons]
          refine ⟨?_, (List.sorted_cons.mp (List.sorted_cons.mp hsort).2).2⟩
          intro c hc
          have hac : intervalLe acc c :=
            (List.sorted_cons.mp hsort).1 c (List.mem_cons_of_mem b hc)
          have hbc : intervalLe b c :=
            (List.sorted_cons.mp (List.sorted_cons.mp hsort).2).1 c hc
          unfold intervalLe at hac hbc ⊢
          rw [hu1, hu2]
          omega
        rw [hmeq]
        obtain ⟨h1, h2, first, rest', heq, hstart⟩ :=
          mergeInto_spec rest (acc.union b) huv hvrest hsort'
        exact ⟨h1, h2, first, rest', heq, by rw [hstart, hu1]⟩
      · have hnb : acc.stop < b.start := by
          rcases lt_or_le acc.stop b.start with h | h
          · exact h
          · exact absurd (overlaps_true_true.mpr ⟨h, le_trans hasb hvb⟩) hov
        have hmeq : mergeInto acc (b :: rest) = acc :: mergeInto b rest := by
          simp [mergeInto, hov]
        obtain ⟨h1, h2, first, rest', heq, hstart⟩ :=
          mergeInto_spec rest b hvb hvrest (List.sorted_cons.mp hsort).2
        rw [hmeq]
        refine ⟨?_, ?_, acc, mergeInto b rest, rfl, rfl⟩
        · intro i hi
          rcases List.mem_cons.mp hi with h | h
          · subst h; exact hacc
          · exact h1 i h
        · unfold GapChain at h2 ⊢
          rw [heq]
          rw [List.chain'_cons]
          refine ⟨?_, by rw [heq] at h2; exact h2⟩
          rw [hstart]
          exact hnb

theorem mergeSorted_spec {l : List DateInterval} (hval : AllValid l)
    (hsort : List.Sorted intervalLe l) :
    AllValid (mergeSorted l) ∧ GapChain (mergeSorted l) := by
  cases l with
  | nil =>
      refine ⟨fun i hi => absurd hi ?_, ?_⟩
      · simp [mergeSorted]
      · simp [mergeSorted, GapChain]
  | cons a rest =>
      obtain ⟨h1, h2, _⟩ := mergeInto_spec rest a (hval a (List.mem_cons_self a rest))
        (fun i hi => hval i (List.mem_cons_of_mem a hi)) hsort
      exact ⟨h1, h2⟩

theorem datesOk_flattenIntervals :
    ∀ l : List DateInterval, AllValid l → GapChain l → datesOk (flattenIntervals l) = true
  | [], _, _ => rfl
  | [a], hval, _ => by
      simp [flattenIntervals, datesOk, hval a (List.mem_singleton_self a)]
  | a :: b :: rest, hval, hchain => by
      have ih := datesOk_flattenIntervals (b :: rest)
        (fun i hi => hval i (List.mem_cons_of_mem a hi)) (List.chain'_cons.mp hchain).2
      have hab : a.stop < b.start := (List.chain'_cons.mp hchain).1
      have hva : a.start ≤ a.stop := hval a (List.mem_cons_self _ _)
      have h1 : flattenIntervals (a :: b :: rest)
          = a.start :: a.stop :: b.start :: b.stop :: flattenIntervals rest := rfl
      have h2 : datesOk (a.start :: a.stop :: b.start :: b.stop :: flattenIntervals rest)
          = (decide (a.start ≤ a.stop) && decide (a.stop < b.start)
              && datesOk (b.start :: b.stop :: flattenIntervals rest)) := rfl
      rw [h1, h2]
      simp only [Bool.and_eq_true, decide_eq_true_eq]
      exact ⟨⟨hva, hab⟩, ih⟩

theorem reduce_datesOk {l : List DateInterval} (h : AllValid l) :
    datesOk (reduceIntervals l) = true := by
  have hs : List.Sorted intervalLe (List.insertionSort intervalLe l) :=
    List.sorted_insertionSort intervalLe l
  have hv : AllValid (List.insertionSort intervalLe l) := fun i hi =>
    h i ((List.mem_insertionSort _).mp hi)
  obtain ⟨h1, h2⟩ := mergeSorted_spec hv hs
  exact datesOk_flattenIntervals _ h1 h2

theorem ofIntervals_reduce_datesOk {l : List DateInterval} (h : AllValid l) :
    datesOk (DateIntervalList.ofIntervals l true).dates = true := by
  unfold DateIntervalList.ofIntervals
  split_ifs with h1 h2
  · rfl
  · exact reduce_datesOk h
  · simp at h2

/-! ### Reduction of an already-reduced list is the identity -/

theorem pairup_allValid : ∀ d : List Int, AllValid (pairup d)
  | [] => by intro i hi; exact absurd hi (List.not_mem_nil i)
  | [x] => by intro i hi; exact absurd hi (List.not_mem_nil i)
  | s :: e :: rest => by
      intro i hi
      have hp : pairup (s :: e :: rest) = DateInterval.make s e :: pairup rest := rfl
      rw [hp] at hi
      rcases List.mem_cons.mp hi with h | h
      · subst h; exact make_start_le_stop s e
      · exact pairup_allValid rest i h

theorem datesOk_cons_cons {s e : Int} {rest : List Int} :
    datesOk (s :: e :: rest) = true ↔
      (s ≤ e ∧ (∀ x ∈ rest.head?, e < x)) ∧ datesOk rest = true := by
  cases rest with
  | nil =>
      show (decide (s ≤ e) && true && datesOk []) = true ↔ _
      simp [datesOk]
  | cons s' t =>
      show (decide (s ≤ e) && decide (e < s') && datesOk (s' :: t)) = true ↔ _
      simp [Bool.and_eq_true, decide_eq_true_eq]

theorem gapChain_all {l : List DateInterval} :
    ∀ {a : DateInterval}, GapChain (a :: l) → AllValid l → ∀ c ∈ l, a.stop < c.start := by
  induction l with
  | nil =>
      intro a _ _ c hc
      exact absurd hc (List.not_mem_nil c)
  | cons b rest ih =>
      intro a hchain hval c hc
      have hab : a.stop < b.start := (List.chain'_cons.mp hchain).1
      rcases List.mem_cons.mp hc with h | h
      · subst h; exact hab
      · have hbc := ih (List.chain'_cons.mp hchain).2
          (fun i hi => hval i (List.mem_cons_of_mem b hi)) c h
        have hvb : b.start ≤ b.stop := hval b (List.mem_cons_self b rest)
        omega

theorem sorted_of_gapChain : ∀ {l : List DateInterval},
    AllValid l → GapChain l → List.Sorted intervalLe l := by
  intro l
  induction l with
  | nil => intro _ _; exact List.sorted_nil
  | cons a rest ih =>
      intro hval hchain
      rw [List.sorted_cons]
      have hvrest : AllValid rest := fun i hi => hval i (List.mem_cons_of_mem a hi)
      refine ⟨?_, ih hvrest (List.chain'_cons'.mp hchain).2⟩
      intro c hc
      have hgap := gapChain_all hchain hvrest c hc
      have hva : a.start ≤ a.stop := hval a (List.mem_cons_self a rest)
      unfold intervalLe
      omega

theorem mergeInto_id : ∀ (l : List DateInterval) (acc : DateInterval),
    GapChain (acc :: l) → mergeInto acc l = acc :: l
  | [], _, _ => rfl
  | b :: rest, acc, h => by
      have hab : acc.stop < b.start := (List.chain'_cons.mp h).1
      have hov : ¬ (b.overlaps acc true true = true) := by
        intro hcon
        have := overlaps_true_true.mp hcon
        omega
      show (if b.overlaps acc true true = true then mergeInto (acc.union b) rest
            else acc :: mergeInto b rest) = acc :: b :: rest
      rw [if_neg hov, mergeInto_id rest b (List.chain'_cons.mp h).2]

theorem pairup_spec : ∀ d : List Int, datesOk d = true →
    flattenIntervals (pairup d) = d ∧ GapChain (pairup d)
  | [], _ => ⟨rfl, List.chain'_nil⟩
  | [x], h => by cases h
  | s :: e :: rest, h => by
      obtain ⟨⟨hse, hgap⟩, hrest⟩ := datesOk_cons_cons.mp h
      obtain ⟨ih1, ih2⟩ := pairup_spec rest hrest
      have hp : pairup (s :: e :: rest) = (⟨s, e⟩ : DateInterval) :: pairup rest := by
        have : pairup (s :: e :: rest) = DateInterval.make s e :: pairup rest := rfl
        rw [this, make_of_le hse]
      constructor
      · rw [hp]
        show s :: e :: flattenIntervals (pairup rest) = s :: e :: rest
        rw [ih1]
      · rw [hp]
        unfold GapChain at ih2 ⊢
        rw [List.chain'_cons']
        refine ⟨?_, ih2⟩
        intro y hy
        cases rest with
        | nil => exact absurd hy (by simp [pairup])
        | cons s' t =>
            cases t with
            | nil => cases hrest
            | cons e' t' =>
                have hp' : pairup (s' :: e' :: t') = DateInterval.make s' e' :: pairup t' := rfl
                rw [hp'] at hy
                simp only [List.head?_cons, Option.mem_def, Option.some_inj] at hy
                have hs'e' : s' ≤ e' := ((datesOk_cons_cons.mp hrest).1).1
                have hes' : e < s' := hgap s' (by simp)
                rw [← hy, make_of_le hs'e']
                exact hes'

theorem reduce_of_datesOk {d : List Int} (h : datesOk d = true) :
    reduceIntervals (pairup d) = d := by
  obtain ⟨h1, h2⟩ := pairup_spec d h
  have hval := pairup_allValid d
  have hsorted : List.Sorted intervalLe (pairup d) := sorted_of_gapChain hval h2
  unfold reduceIntervals
  rw [List.Sorted.insertionSort_eq hsorted]
  cases hp : pairup d with
  | nil =>
      rw [← h1, hp]
      rfl
  | cons a rest =>
      show flattenIntervals (mergeInto a rest) = d
      rw [mergeInto_id rest a (hp ▸ h2), ← hp, h1]

/-! ### The intersection sweep produces sorted, disjoint, non-degenerate
intervals -/

theorem sweepAux_nil_left (azl : Bool) (fuel : Nat) (l2 : List DateInterval) :
    intersectSweepAux azl fuel [] l2 = [] := by
  cases fuel <;> cases l2 <;> rfl

theorem sweepAux_nil_right (azl : Bool) (fuel : Nat) (l1 : List DateInterval) :
    intersectSweepAux azl fuel l1 [] = [] := by
  cases fuel <;> cases l1 <;> rfl


theorem sweepAux_spec : ∀ (fuel : Nat) (l1 l2 : List DateInterval),
    AllValid l1 → AllValid l2 → GapChain l1 → GapChain l2 →
    AllStrict (intersectSweepAux false fuel l1 l2) ∧
    GapChain (intersectSweepAux false fuel l1 l2) ∧
    (∀ r ∈ intersectSweepAux false fuel l1 l2,
        (∀ x ∈ l1.head?, x.start ≤ r.start) ∧ (∀ y ∈ l2.head?, y.start ≤ r.start)) := by
  intro fuel
  induction fuel with
  | zero =>
      intro l1 l2 _ _ _ _
      have h0 : intersectSweepAux false 0 l1 l2 = [] := by cases l1 <;> cases l2 <;> rfl
      rw [h0]
      exact ⟨fun r hr => absurd hr (List.not_mem_nil r), List.chain'_nil,
        fun r hr => absurd hr (List.not_mem_nil r)⟩
  | succ n ih =>
      intro l1 l2 hv1 hv2 hc1 hc2
      rcases l1 with _ | ⟨a, as⟩
      · rw [sweepAux_nil_left]
        exact ⟨fun r hr => absurd hr (List.not_mem_nil r), List.chain'_nil,
          fun r hr => absurd hr (List.not_mem_nil r)⟩
      rcases l2 with _ | ⟨b, bs⟩
      · rw [sweepAux_nil_right]
        exact ⟨fun r hr => absurd hr (List.not_mem_nil r), List.chain'_nil,
          fun r hr => absurd hr (List.not_mem_nil r)⟩
      have hva : a.start ≤ a.stop := hv1 a (List.mem_cons_self a as)
      have hvb : b.start ≤ b.stop := hv2 b (List.mem_cons_self b bs)
      have hvas : AllValid as := fun i hi => hv1 i (List.mem_cons_of_mem a hi)
      have hvbs : AllValid bs := fun i hi => hv2 i (List.mem_cons_of_mem b hi)
      have hcas : GapChain as := (List.chain'_cons'.mp hc1).2
      have hcbs : GapChain bs := (List.chain'_cons'.mp hc2).2
      have hstep : intersectSweepAux false (n + 1) (a :: as) (b :: bs) =
          (match a.intersect b false with
           | some ivl => ivl ::
               (if compareTo a.stop b.stop < 0 then intersectSweepAux false n as (b :: bs)
                else intersectSweepAux false n (a :: as) bs)
           | none =>
               (if compareTo a.stop b.stop < 0 then intersectSweepAux false n as (b :: bs)
                else intersectSweepAux false n (a :: as) bs)) := rfl
      by_cases hadv : compareTo a.stop b.stop < 0
      · -- advance the first list
        have hadv' : a.stop < b.stop := compareTo_neg.mp hadv
        obtain ⟨ih1, ih2, ih3⟩ := ih as (b :: bs) hvas hv2 hcas hc2
        have hrest_gt : ∀ r ∈ intersectSweepAux false n as (b :: bs), a.stop < r.start := by
          intro r hr
          cases as with
          | nil => rw [sweepAux_nil_left] at hr; exact absurd hr (List.not_mem_nil r)
          | cons a' as' =>
              have h1 := (ih3 r hr).1 a' (by simp)
              have h2 : a.stop < a'.start := (List.chain'_cons'.mp hc1).1 a' (by simp)
              omega
        rw [hstep, if_pos hadv]
        rcases hint : a.intersect b false with _ | r0
        · refine ⟨ih1, ih2, ?_⟩
          intro r hr
          constructor
          · intro x hx
            simp only [List.head?_cons, Option.mem_def, Option.some_inj] at hx
            subst hx
            have := hrest_gt r hr
            omega
          · exact (ih3 r hr).2
        · obtain ⟨hs1, hs2, hs3, hs4, hs5, _⟩ := intersect_false_spec hint
          refine ⟨?_, ?_, ?_⟩
          · intro r hr
            rcases List.mem_cons.mp hr with h | h
            · subst h; exact hs1
            · exact ih1 r h
          · unfold GapChain
            rw [List.chain'_cons']
            refine ⟨?_, ih2⟩
            intro y hy
            have hmem := List.mem_of_mem_head? hy
            have := hrest_gt y hmem
            omega
          · intro r hr
            rcases List.mem_cons.mp hr with h | h
            · subst h
              constructor
              · intro x hx
                simp only [List.head?_cons, Option.mem_def, Option.some_inj] at hx
                subst hx
                omega
              · intro y hy
                simp only [List.head?_cons, Option.mem_def, Option.some_inj] at hy
                subst hy
                omega
            · constructor
              · intro x hx
                simp only [List.head?_cons, Option.mem_def, Option.some_inj] at hx
                subst hx
                have := hrest_gt r h
                omega
              · exact (ih3 r h).2
      · -- advance the second list
        have hba : b.stop ≤ a.stop := by
          rcases le_or_lt b.stop a.stop with h | h
          · exact h
          · exact absurd (compareTo_neg.mpr h) hadv
        obtain ⟨ih1, ih2, ih3⟩ := ih (a :: as) bs hv1 hvbs hc1 hcbs
        have hrest_gt : ∀ r ∈ intersectSweepAux false n (a :: as) bs, b.stop < r.start := by
          intro r hr
          cases bs with
          | nil => rw [sweepAux_nil_right] at hr; exact absurd hr (List.not_mem_nil r)
          | cons b' bs' =>
              have h1 := (ih3 r hr).2 b' (by simp)
              have h2 : b.stop < b'.start := (List.chain'_cons'.mp hc2).1 b' (by simp)
              omega
        rw [hstep, if_neg hadv]
        rcases hint : a.intersect b false with _ | r0
        · refine ⟨ih1, ih2, ?_⟩
          intro r hr
          constructor
          · exact (ih3 r hr).1
          · intro y hy
            simp only [List.head?_cons, Option.mem_def, Option.some_inj] at hy
            subst hy
            have := hrest_gt r hr
            omega
        · obtain ⟨hs1, hs2, hs3, hs4, hs5, _⟩ := intersect_false_spec hint
          refine ⟨?_, ?_, ?_⟩
          · intro r hr
            rcases List.mem_cons.mp hr with h | h
            · subst h; exact hs1
            · exact ih1 r h
          · unfold GapChain
            rw [List.chain'_cons']
            refine ⟨?_, ih2⟩
            intro y hy
            have hmem := List.mem_of_mem_head? hy
            have := hrest_gt y hmem
            omega
          · intro r hr
            rcases List.mem_cons.mp hr with h | h
            · subst h
              constructor
              · intro x hx
                simp only [List.head?_cons, Option.mem_def, Option.some_inj] at hx
                subst hx
                omega
              · intro y hy
                simp only [List.head?_cons, Option.mem_def, Option.some_inj] at hy
                subst hy
                omega
            · constructor
              · exact (ih3 r h).1
              · intro y hy
                simp only [List.head?_cons, Option.mem_def, Option.some_inj] at hy
                subst hy
                have := hrest_gt r h
                omega

theorem strictIncr_flattenIntervals :
    ∀ l : List DateInterval, AllStrict l → GapChain l → strictIncr (flattenIntervals l) = true
  | [], _, _ => rfl
  | [a], hval, _ => by
      have h1 : flattenIntervals [a] = [a.start, a.stop] := rfl
      have h2 : strictIncr [a.start, a.stop] = (decide (a.start < a.stop) && true) := rfl
      rw [h1, h2]
      simp [hval a (List.mem_singleton_self a)]
  | a :: b :: rest, hval, hchain => by
      have ih := strictIncr_flattenIntervals (b :: rest)
        (fun i hi => hval i (List.mem_cons_of_mem a hi)) (List.chain'_cons.mp hchain).2
      have hab : a.stop < b.start := (List.chain'_cons.mp hchain).1
      have hva : a.start < a.stop := hval a (List.mem_cons_self _ _)
      have h1 : flattenIntervals (a :: b :: rest)
          = a.start :: a.stop :: b.start :: b.stop :: flattenIntervals rest := rfl
      have h2 : strictIncr (a.start :: a.stop :: b.start :: b.stop :: flattenIntervals rest)
          = (decide (a.start < a.stop) && (decide (a.stop < b.start)
              && strictIncr (b.start :: b.stop :: flattenIntervals rest))) := rfl
      rw [h1, h2]
      simp only [Bool.and_eq_true, decide_eq_true_eq]
      exact ⟨hva, hab, ih⟩

theorem pairwise_of_strictIncr :
    ∀ {d : List Int}, strictIncr d = true → List.Pairwise (fun x y : Int => x < y) d
  | [], _ => List.Pairwise.nil
  | [x], _ => List.pairwise_singleton _ x
  | a :: b :: rest, h => by
      have h' : strictIncr (a :: b :: rest) = (decide (a < b) && strictIncr (b :: rest)) := rfl
      rw [h'] at h
      simp only [Bool.and_eq_true, decide_eq_true_eq] at h
      have ih := pairwise_of_strictIncr h.2
      refine List.Pairwise.cons ?_ ih
      intro c hc
      rcases List.mem_cons.mp hc with hcb | hcr
      · subst hcb; exact h.1
      · have := (List.pairwise_cons.mp ih).1 c hcr
        omega

theorem datesOk_of_pairwise_even : ∀ d : List Int,
    List.Pairwise (fun x y : Int => x < y) d → d.length % 2 = 0 → datesOk d = true
  | [], _, _ => rfl
  | [x], _, h => by simp at h
  | s :: e :: rest, hp, hl => by
      rw [datesOk_cons_cons]
      obtain ⟨h1, h2⟩ := List.pairwise_cons.mp hp
      obtain ⟨h3, h4⟩ := List.pairwise_cons.mp h2
      refine ⟨⟨le_of_lt (h1 e (List.mem_cons_self e rest)), ?_⟩,
        datesOk_of_pairwise_even rest h4 ?_⟩
      · intro x hx
        exact h3 x (List.mem_of_mem_head? hx)
      · have : (s :: e :: rest).length = rest.length + 2 := by
          simp [List.length_cons]
        omega

theorem list_intersection_dates (A B : DateIntervalList) (azl : Bool) :
    (list_intersection A B azl).dates
      = flattenIntervals (intersectSweep azl A.intervals B.intervals) := by
  unfold list_intersection DateIntervalList.ofIntervals
  split_ifs with h1 h2
  · rw [List.isEmpty_iff.mp h1]
    rfl
  · simp at h2
  · rfl

theorem intersection_invariant (A B : DateIntervalList)
    (hA : datesOk A.dates = true) (hB : datesOk B.dates = true) :
    strictIncr (list_intersection A B false).dates = true ∧
    datesOk (list_intersection A B false).dates = true := by
  have hGA : GapChain A.intervals := (pairup_spec _ hA).2
  have hGB : GapChain B.intervals := (pairup_spec _ hB).2
  have hVA : AllValid A.intervals := pairup_allValid _
  have hVB : AllValid B.intervals := pairup_allValid _
  obtain ⟨hS, hG, _⟩ := sweepAux_spec (A.intervals.length + B.intervals.length)
    A.intervals B.intervals hVA hVB hGA hGB
  rw [list_intersection_dates]
  exact ⟨strictIncr_flattenIntervals _ hS hG,
    datesOk_flattenIntervals _ (fun i hi => le_of_lt (hS i hi)) hG⟩

/-! ### The complement construction keeps boundaries strictly increasing
when fed a strictly increasing list -/

theorem popIfOdd_even (l : List Int) : (popIfOdd l).length % 2 = 0 := by
  unfold popIfOdd
  split_ifs with h
  · exact h
  · rw [List.length_dropLast]
    omega

theorem popIfOdd_pairwise {R : Int → Int → Prop} {l : List Int}
    (h : List.Pairwise R l) : List.Pairwise R (popIfOdd l) := by
  unfold popIfOdd
  split_ifs
  · exact h
  · exact h.sublist (List.dropLast_sublist l)

theorem popTailPair_strict (c : List Int) (b : Int)
    (hc : List.Pairwise (fun x y : Int => x < y) c) (hb : ∀ d ∈ c, d ≤ b) :
    ∀ l', popTailPairIfEqual (c ++ [b]) = some l' →
      List.Pairwise (fun x y : Int => x < y) l' := by
  intro l' hl'
  rcases c.eq_nil_or_concat' with hnil | ⟨g, y, hgy⟩
  · subst hnil
    unfold popTailPairIfEqual at hl'
    simp at hl'
  · subst hgy
    unfold popTailPairIfEqual at hl'
    rw [show ((g ++ [y]) ++ [b]).reverse = b :: y :: g.reverse by simp] at hl'
    simp only [Option.some_inj] at hl'
    by_cases hby : b = y
    · rw [if_pos hby, List.reverse_reverse] at hl'
      subst hl'
      exact hc.sublist (List.sublist_append_left g [y])
    · rw [if_neg hby] at hl'
      subst hl'
      rw [List.pairwise_append]
      refine ⟨hc, List.pairwise_singleton _ b, ?_⟩
      intro x hx z hz
      rw [List.mem_singleton] at hz
      rw [hz]
      rcases List.mem_append.mp hx with hg | hy
      · have hxy : x < y :=
          (List.pairwise_append.mp hc).2.2 x hg y (List.mem_singleton_self y)
        have hyb : y ≤ b := hb y (List.mem_append.mpr (Or.inr (List.mem_singleton_self y)))
        omega
      · rw [List.mem_singleton] at hy
        rw [hy]
        have h1 : y ≤ b := hb y (List.mem_append.mpr (Or.inr (List.mem_singleton_self y)))
        have h2 : b ≠ y := hby
        omega

theorem filter_contained_bounds {spn : DateInterval} {ds : List Int} :
    ∀ d ∈ ds.filter (fun d => is_contained_in (.point d) spn.start spn.stop true true),
      spn.start ≤ d ∧ d ≤ spn.stop := by
  intro d hd
  have h0 := List.of_mem_filter hd
  simp only [is_contained_in, Bool.and_eq_true, decide_eq_true_eq, if_true, ge_iff_le] at h0
  exact ⟨compareTo_nonpos.mp h0.1, compareTo_nonneg.mp h0.2⟩

theorem filter_contained_all {spn : DateInterval} {ds : List Int}
    (h : ∀ d ∈ ds, spn.start ≤ d ∧ d ≤ spn.stop) :
    ds.filter (fun d => is_contained_in (.point d) spn.start spn.stop true true) = ds := by
  apply List.filter_eq_self.mpr
  intro d hd
  simp only [is_contained_in, Bool.and_eq_true, decide_eq_true_eq, if_true, ge_iff_le]
  exact ⟨compareTo_nonpos.mpr (h d hd).1, compareTo_nonneg.mpr (h d hd).2⟩

theorem list_compliment_some (lst : DateIntervalList) (spn : DateInterval) :
    list_compliment lst (some spn) =
      (match popTailPairIfEqual
          (match spn.start :: ((lst.dates.filter
              (fun d => is_contained_in (.point d) spn.start spn.stop true true))
              ++ [spn.stop]) with
           | a :: b :: rest => if a = b then rest else a :: b :: rest
           | l => l) with
       | none => none
       | some dates => some ⟨popIfOdd dates⟩) := rfl

theorem compliment_datesOk (lst : DateIntervalList) (spn : DateInterval)
    (hs : List.Pairwise (fun x y : Int => x < y) lst.dates) (hle : spn.start ≤ spn.stop) :
    ∀ r, list_compliment lst (some spn) = some r → datesOk r.dates = true := by
  intro r hr
  rw [list_compliment_some] at hr
  rcases hff : lst.dates.filter
      (fun d => is_contained_in (.point d) spn.start spn.stop true true) with _ | ⟨f0, f'⟩
  · rw [hff] at hr
    simp only [List.nil_append] at hr
    by_cases he : spn.start = spn.stop
    · rw [if_pos he] at hr
      rw [show popTailPairIfEqual [] = some [] from rfl] at hr
      simp only [Option.some_inj] at hr
      subst hr
      rfl
    · rw [if_neg he] at hr
      rcases hpt : popTailPairIfEqual [spn.start, spn.stop] with _ | l'
      · rw [hpt] at hr; cases hr
      · rw [hpt] at hr
        simp only [Option.some_inj] at hr
        subst hr
        have hc : List.Pairwise (fun x y : Int => x < y) [spn.start] :=
          List.pairwise_singleton _ _
        have hb : ∀ d ∈ [spn.start], d ≤ spn.stop := by
          intro d hd
          rw [List.mem_singleton] at hd
          rw [hd]
          exact hle
        have hp := popTailPair_strict [spn.start] spn.stop hc hb l' hpt
        exact datesOk_of_pairwise_even _ (popIfOdd_pairwise hp) (popIfOdd_even l')
  · have hfp : List.Pairwise (fun x y : Int => x < y) (f0 :: f') := by
      rw [← hff]
      exact hs.sublist (List.filter_sublist _)
    have hbounds : ∀ d ∈ f0 :: f', spn.start ≤ d ∧ d ≤ spn.stop := by
      rw [← hff]
      exact filter_contained_bounds
    rw [hff] at hr
    simp only [List.cons_append] at hr
    by_cases heq : spn.start = f0
    · rw [if_pos heq] at hr
      rcases hpt : popTailPairIfEqual (f' ++ [spn.stop]) with _ | l'
      · rw [hpt] at hr; cases hr
      · rw [hpt] at hr
        simp only [Option.some_inj] at hr
        subst hr
        have hc : List.Pairwise (fun x y : Int => x < y) f' := (List.pairwise_cons.mp hfp).2
        have hb : ∀ d ∈ f', d ≤ spn.stop := fun d hd =>
          (hbounds d (List.mem_cons_of_mem f0 hd)).2
        have hp := popTailPair_strict f' spn.stop hc hb l' hpt
        exact datesOk_of_pairwise_even _ (popIfOdd_pairwise hp) (popIfOdd_even l')
    · rw [if_neg heq] at hr
      have hform : spn.start :: f0 :: (f' ++ [spn.stop])
          = (spn.start :: f0 :: f') ++ [spn.stop] := by simp
      rw [hform] at hr
      rcases hpt : popTailPairIfEqual ((spn.start :: f0 :: f') ++ [spn.stop]) with _ | l'
      · rw [hpt] at hr; cases hr
      · rw [hpt] at hr
        simp only [Option.some_inj] at hr
        subst hr
        have hc : List.Pairwise (fun x y : Int => x < y) (spn.start :: f0 :: f') := by
          rw [List.pairwise_cons]
          refine ⟨?_, hfp⟩
          intro d hd
          rcases List.mem_cons.mp hd with h | h
          · rw [h]
            exact lt_of_le_of_ne (hbounds f0 (List.mem_cons_self f0 f')).1 (h ▸ heq)
          · have h1 : spn.start ≤ f0 := (hbounds f0 (List.mem_cons_self f0 f')).1
            have h2 : f0 < d := (List.pairwise_cons.mp hfp).1 d h
            omega
        have hb : ∀ d ∈ spn.start :: f0 :: f', d ≤ spn.stop := by
          intro d hd
          rcases List.mem_cons.mp hd with h | h
          · rw [h]; exact hle
          · exact (hbounds d h).2
        have hp := popTailPair_strict (spn.start :: f0 :: f') spn.stop hc hb l' hpt
        exact datesOk_of_pairwise_even _ (popIfOdd_pairwise hp) (popIfOdd_even l')

/-! ### Subtraction inherits the invariant; helper computations for the
complement round trip -/

theorem span_make (lst : DateIntervalList) :
    ∀ s, lst.span = some s → s.start ≤ s.stop := by
  intro s hs
  unfold DateIntervalList.span at hs
  rcases h : lst.dates with _ | ⟨d, rest⟩
  · rw [h] at hs; cases hs
  · rw [h] at hs
    simp only [Option.some_inj] at hs
    rw [← hs]
    exact make_start_le_stop _ _

theorem subtract_datesOk (A B : DateIntervalList)
    (hA : datesOk A.dates = true) (hB : datesOk B.dates = true) :
    ∀ r, list_subtract A B = some r → datesOk r.dates = true := by
  intro r hr
  unfold list_subtract at hr
  rcases hsp : A.span with _ | s
  · rw [hsp] at hr; cases hr
  · rw [hsp] at hr
    have hsi := (intersection_invariant A B hA hB).1
    exact compliment_datesOk _ s (pairwise_of_strictIncr hsi) (span_make A s hsp) r hr

theorem popIfOdd_of_even {l : List Int} (h : l.length % 2 = 0) : popIfOdd l = l := by
  unfold popIfOdd
  rw [if_pos h]

theorem popTailPair_concat_concat (L : List Int) (x : Int) :
    popTailPairIfEqual ((L ++ [x]) ++ [x]) = some L := by
  unfold popTailPairIfEqual
  rw [show ((L ++ [x]) ++ [x]).reverse = x :: x :: L.reverse by simp]
  show some (if x = x then L.reverse.reverse else (L ++ [x]) ++ [x]) = some L
  rw [if_pos rfl, List.reverse_reverse]

theorem popTailPair_ne (L : List Int) (y x : Int) (h : x ≠ y) :
    popTailPairIfEqual ((L ++ [y]) ++ [x]) = some ((L ++ [y]) ++ [x]) := by
  unfold popTailPairIfEqual
  rw [show ((L ++ [y]) ++ [x]).reverse = x :: y :: L.reverse by simp]
  show some (if x = y then L.reverse.reverse else (L ++ [y]) ++ [x])
      = some ((L ++ [y]) ++ [x])
  rw [if_neg h]

theorem popTailPair_ne_last (c : List Int) (x : Int) (hc : c ≠ [])
    (h : ∀ hne : c ≠ [], x ≠ c.getLast hne) :
    popTailPairIfEqual (c ++ [x]) = some (c ++ [x]) := by
  rcases c.eq_nil_or_concat' with hnil | ⟨L, y, hLy⟩
  · exact absurd hnil hc
  · subst hLy
    have hy : x ≠ y := by
      have := h hc
      rw [List.getLast_concat ..] at this
      exact this
    exact popTailPair_ne L y x hy

theorem dates_mk (l : List Int) : (⟨l⟩ : DateIntervalList).dates = l := rfl

/-! ### Claim theorems -/

/-- C5: for every IntervalSet S whose boundaries all lie strictly inside the
span (no endpoint touching the span's boundary, even length), taking the
complement twice over that span returns S itself. -/
theorem claim5_compliment_involution (S : DateIntervalList) (spn : DateInterval)
    (hle : spn.start ≤ spn.stop)
    (heven : S.dates.length % 2 = 0)
    (hin : ∀ d ∈ S.dates, spn.start < d ∧ d < spn.stop) :
    (list_compliment S (some spn)).bind (fun c => list_compliment c (some spn)) = some S := by
  obtain ⟨Sd⟩ := S
  rcases Sd with _ | ⟨d0, ds⟩
  · by_cases he : spn.start = spn.stop
    · have h1 : list_compliment ⟨[]⟩ (some spn) = some ⟨[]⟩ := by
        rw [list_compliment_some]
        simp only [dates_mk, List.filter_nil, List.nil_append]
        rw [if_pos he]
        rfl
      rw [h1]
      exact h1
    · have hne : spn.stop ≠ spn.start := fun hcon => he hcon.symm
      have h1 : list_compliment ⟨[]⟩ (some spn) = some ⟨[spn.start, spn.stop]⟩ := by
        rw [list_compliment_some]
        simp only [dates_mk, List.filter_nil, List.nil_append]
        rw [if_neg he]
        have hpt : popTailPairIfEqual [spn.start, spn.stop] = some [spn.start, spn.stop] :=
          popTailPair_ne [] spn.start spn.stop hne
        rw [hpt]
        show some (⟨popIfOdd [spn.start, spn.stop]⟩ : DateIntervalList)
            = some ⟨[spn.start, spn.stop]⟩
        rw [popIfOdd_of_even (show ([spn.start, spn.stop] : List Int).length % 2 = 0 by simp)]
      have hfeq : List.filter
          (fun d => is_contained_in (.point d) spn.start spn.stop true true)
          [spn.start, spn.stop] = [spn.start, spn.stop] := by
        apply filter_contained_all
        intro d hd
        rcases List.mem_cons.mp hd with h | h
        · rw [h]; exact ⟨le_refl _, hle⟩
        · rw [List.mem_singleton] at h; rw [h]; exact ⟨hle, le_refl _⟩
      have h2 : list_compliment ⟨[spn.start, spn.stop]⟩ (some spn) = some ⟨[]⟩ := by
        rw [list_compliment_some]
        simp only [dates_mk]
        rw [hfeq]
        simp only [List.cons_append, List.nil_append]
        rw [if_true]
        have hpt2 : popTailPairIfEqual [spn.stop, spn.stop] = some [] :=
          popTailPair_concat_concat [] spn.stop
        rw [hpt2]
        show some (⟨popIfOdd []⟩ : DateIntervalList) = some ⟨[]⟩
        rw [popIfOdd_of_even (show (([] : List Int)).length % 2 = 0 by simp)]
      rw [h1]
      exact h2
  · have hd0 := hin d0 (List.mem_cons_self d0 ds)
    have hbnd : ∀ d ∈ d0 :: ds, spn.start ≤ d ∧ d ≤ spn.stop := fun d hd =>
      ⟨le_of_lt (hin d hd).1, le_of_lt (hin d hd).2⟩
    have hne0 : spn.start ≠ d0 := ne_of_lt hd0.1
    have hfeq : List.filter
        (fun d => is_contained_in (.point d) spn.start spn.stop true true)
        (d0 :: ds) = d0 :: ds := filter_contained_all hbnd
    have hclast : ∀ hne : (spn.start :: d0 :: ds) ≠ [],
        spn.stop ≠ (spn.start :: d0 :: ds).getLast hne := by
      intro hne
      have hmem := List.getLast_mem hne
      rcases List.mem_cons.mp hmem with h | h
      · rw [h]
        omega
      · have := (hin _ h).2
        omega
    have h1 : list_compliment ⟨d0 :: ds⟩ (some spn)
        = some ⟨spn.start :: d0 :: (ds ++ [spn.stop])⟩ := by
      rw [list_compliment_some]
      simp only [dates_mk]
      rw [hfeq]
      simp only [List.cons_append]
      rw [if_neg hne0]
      have hpt : popTailPairIfEqual (spn.start :: d0 :: (ds ++ [spn.stop]))
          = some (spn.start :: d0 :: (ds ++ [spn.stop])) :=
        popTailPair_ne_last (spn.start :: d0 :: ds) spn.stop (by simp) hclast
      rw [hpt]
      have h' : (d0 :: ds).length % 2 = 0 := heven
      have hlen : (spn.start :: d0 :: (ds ++ [spn.stop])).length % 2 = 0 := by
        simp only [List.length_cons, List.length_append, List.length_singleton,
          List.length_nil] at h' ⊢
        omega
      show some (⟨popIfOdd (spn.start :: d0 :: (ds ++ [spn.stop]))⟩ : DateIntervalList)
          = some ⟨spn.start :: d0 :: (ds ++ [spn.stop])⟩
      rw [popIfOdd_of_even hlen]
    have hbnd2 : ∀ d ∈ spn.start :: d0 :: (ds ++ [spn.stop]),
        spn.start ≤ d ∧ d ≤ spn.stop := by
      intro d hd
      rcases List.mem_cons.mp hd with h | h
      · rw [h]; exact ⟨le_refl _, hle⟩
      rcases List.mem_cons.mp h with h' | h'
      · rw [h']; exact hbnd d0 (List.mem_cons_self d0 ds)
      rcases List.mem_append.mp h' with h'' | h''
      · exact hbnd d (List.mem_cons_of_mem d0 h'')
      · rw [List.mem_singleton] at h''; rw [h'']; exact ⟨hle, le_refl _⟩
    have hfeq2 : List.filter
        (fun d => is_contained_in (.point d) spn.start spn.stop true true)
        (spn.start :: d0 :: (ds ++ [spn.stop]))
        = spn.start :: d0 :: (ds ++ [spn.stop]) := filter_contained_all hbnd2
    have h2 : list_compliment ⟨spn.start :: d0 :: (ds ++ [spn.stop])⟩ (some spn)
        = some ⟨d0 :: ds⟩ := by
      rw [list_compliment_some]
      simp only [dates_mk]
      rw [hfeq2]
      simp only [List.cons_append]
      rw [if_true]
      have hpt2 : popTailPairIfEqual (d0 :: ((ds ++ [spn.stop]) ++ [spn.stop]))
          = some (d0 :: ds) :=
        popTailPair_concat_concat (d0 :: ds) spn.stop
      rw [hpt2]
      show some (⟨popIfOdd (d0 :: ds)⟩ : DateIntervalList) = some ⟨d0 :: ds⟩
      rw [popIfOdd_of_even (show ((d0 :: ds) : List Int).length % 2 = 0 from heven)]
    rw [h1]
    exact h2

/-- C5 witness: a concrete two-interval set strictly inside the span. -/
theorem claim5_witness :
    ((DateInterval.make 0 6).start ≤ (DateInterval.make 0 6).stop
      ∧ (⟨[1, 2, 4, 5]⟩ : DateIntervalList).dates.length % 2 = 0
      ∧ ∀ d ∈ (⟨[1, 2, 4, 5]⟩ : DateIntervalList).dates,
          (DateInterval.make 0 6).start < d ∧ d < (DateInterval.make 0 6).stop)
    ∧ (list_compliment ⟨[1, 2, 4, 5]⟩ (some (DateInterval.make 0 6))).bind
        (fun c => list_compliment c (some (DateInterval.make 0 6))) = some ⟨[1, 2, 4, 5]⟩ :=
  ⟨⟨by decide, by decide, by decide⟩,
    claim5_compliment_involution ⟨[1, 2, 4, 5]⟩ (DateInterval.make 0 6) (by decide) (by decide)
      (by decide)⟩

/-- C9: reduction is idempotent: rebuilding a reduced list from its own
intervals with reduction enabled returns an identical list, for every input
list of valid intervals (start at or before stop, as the source constructor
guarantees). -/
theorem claim9_reduce_idempotent (l : List DateInterval) (h : AllValid l) :
    DateIntervalList.ofIntervals (DateIntervalList.ofIntervals l true).intervals true
      = DateIntervalList.ofIntervals l true := by
  rcases l with _ | ⟨a, rest⟩
  · rfl
  · have hS : DateIntervalList.ofIntervals (a :: rest) true
        = ⟨reduceIntervals (a :: rest)⟩ := by
      unfold DateIntervalList.ofIntervals
      rw [if_neg (by simp), if_pos rfl]
    have hdok : datesOk (reduceIntervals (a :: rest)) = true := reduce_datesOk h
    rw [hS]
    have hred : reduceIntervals (pairup (reduceIntervals (a :: rest)))
        = reduceIntervals (a :: rest) := reduce_of_datesOk hdok
    unfold DateIntervalList.ofIntervals DateIntervalList.intervals
    simp only [dates_mk]
    split_ifs with h1
    · have hnil : pairup (reduceIntervals (a :: rest)) = [] := List.isEmpty_iff.mp h1
      rcases hd : reduceIntervals (a :: rest) with _ | ⟨x, xs⟩
      · rfl
      · rcases xs with _ | ⟨y, ys⟩
        · rw [hd] at hdok; cases hdok
        · rw [hd] at hnil
          rw [show pairup (x :: y :: ys) = DateInterval.make x y :: pairup ys from rfl] at hnil
          cases hnil
    · rw [hred]

/-- C9 witness: two overlapping intervals, reduced, then reduced again. -/
theorem claim9_witness :
    AllValid [DateInterval.make 0 3, DateInterval.make 2 5]
    ∧ DateIntervalList.ofIntervals
        (DateIntervalList.ofIntervals
          [DateInterval.make 0 3, DateInterval.make 2 5] true).intervals true
      = DateIntervalList.ofIntervals [DateInterval.make 0 3, DateInterval.make 2 5] true :=
  ⟨by decide,
    claim9_reduce_idempotent [DateInterval.make 0 3, DateInterval.make 2 5] (by decide)⟩

/-- C4 (amended): the reducing constructor and union always produce an even
boundary sequence with ordered pairs and strict gaps; intersection produces
one whenever its two inputs satisfy the invariant; complement and subtract
preserve it when the input boundaries are strictly increasing (no
degenerate stored interval) — complement of a list holding a degenerate
interval can emit abutting boundaries, see the counterexample. -/
theorem claim4_invariant_amended :
    (∀ l : List DateInterval, AllValid l →
        datesOk (DateIntervalList.ofIntervals l true).dates = true)
    ∧ (∀ A B : DateIntervalList, datesOk (list_union A B).dates = true)
    ∧ (∀ A B : DateIntervalList, datesOk A.dates = true → datesOk B.dates = true →
        datesOk (list_intersection A B false).dates = true)
    ∧ (∀ (lst : DateIntervalList) (spn : DateInterval), strictIncr lst.dates = true →
        spn.start ≤ spn.stop →
        ∀ r, list_compliment lst (some spn) = some r → datesOk r.dates = true)
    ∧ (∀ A B : DateIntervalList, datesOk A.dates = true → datesOk B.dates = true →
        ∀ r, list_subtract A B = some r → datesOk r.dates = true) := by
  refine ⟨?_, ?_, ?_, ?_, ?_⟩
  · intro l h
    exact ofIntervals_reduce_datesOk h
  · intro A B
    apply ofIntervals_reduce_datesOk
    intro i hi
    rcases List.mem_append.mp hi with h | h
    · exact pairup_allValid A.dates i h
    · exact pairup_allValid B.dates i h
  · intro A B hA hB
    exact (intersection_invariant A B hA hB).2
  · intro lst spn hsi hle r hr
    exact compliment_datesOk lst spn (pairwise_of_strictIncr hsi) hle r hr
  · intro A B hA hB r hr
    exact subtract_datesOk A B hA hB r hr

/-- C4 counterexample: the degenerate interval [2,2] is a legitimately
reduced IntervalSet, yet its complement over the span [0,5] stores the
boundary sequence [0,2,2,5], whose two intervals share the boundary 2 —
the strict-gap invariant fails on a set-algebra output. -/
theorem claim4_counterexample :
    datesOk (DateIntervalList.ofIntervals [DateInterval.make 2 2] true).dates = true
    ∧ list_compliment (DateIntervalList.ofIntervals [DateInterval.make 2 2] true)
        (some (DateInterval.make 0 5)) = some ⟨[0, 2, 2, 5]⟩
    ∧ datesOk [0, 2, 2, 5] = false := by decide

/-- C4 witness: concrete instantiations of the reducing constructor and the
complement conjuncts of the amended invariant theorem. -/
theorem claim4_witness :
    (AllValid [DateInterval.make 5 7, DateInterval.make 0 2]
      ∧ datesOk (DateIntervalList.ofIntervals
          [DateInterval.make 5 7, DateInterval.make 0 2] true).dates = true)
    ∧ (strictIncr (⟨[1, 2, 5, 6]⟩ : DateIntervalList).dates = true
      ∧ (DateInterval.make 0 9).start ≤ (DateInterval.make 0 9).stop
      ∧ list_compliment ⟨[1, 2, 5, 6]⟩ (some (DateInterval.make 0 9))
          = some ⟨[0, 1, 2, 5, 6, 9]⟩
      ∧ datesOk (⟨[0, 1, 2, 5, 6, 9]⟩ : DateIntervalList).dates = true) :=
  ⟨⟨by decide,
      claim4_invariant_amended.1 [DateInterval.make 5 7, DateInterval.make 0 2] (by decide)⟩,
    by decide, by decide, by decide,
    claim4_invariant_amended.2.2.2.1 ⟨[1, 2, 5, 6]⟩ (DateInterval.make 0 9) (by decide)
      (by decide) ⟨[0, 1, 2, 5, 6, 9]⟩ (by decide)⟩

/-- C6: pad fails exactly when the amount is negative and twice the amount
is below the negated duration; a nonnegative amount always succeeds and
shifts the start by minus the amount and the stop by plus the amount. -/
theorem claim6_pad (ivl : DateInterval) (t : Int) (h : ivl.start ≤ ivl.stop) :
    (ivl.pad t = none ↔ t < 0 ∧ 2 * t < -(ivl.stop - ivl.start))
    ∧ (0 ≤ t → ivl.pad t = some ⟨ivl.start - t, ivl.stop + t⟩) := by
  constructor
  · unfold DateInterval.pad
    dsimp only
    split_ifs with hc
    · constructor
      · intro _
        constructor <;> omega
      · intro _
        rfl
    · constructor
      · intro hcon
        exact absurd hcon (by simp)
      · intro hcon
        exact absurd hcon.2 hc
  · intro ht
    unfold DateInterval.pad
    dsimp only
    rw [if_neg (by omega)]
    rw [make_of_le (by omega)]
    have h1 : ivl.start + -t = ivl.start - t := by ring
    rw [h1]

/-- C6 witness: padding the interval [0,5] by 3 succeeds and yields
[-3,8]. -/
theorem claim6_witness :
    ((0 : Int) ≤ 5 ∧ (0 : Int) ≤ 3)
    ∧ DateInterval.pad ⟨0, 5⟩ 3 = some ⟨-3, 8⟩ :=
  ⟨⟨by decide, by decide⟩, (claim6_pad ⟨0, 5⟩ 3 (by decide)).2 (by decide)⟩

/-- C7: the builder enforces alternating bracket discipline: add_start fails
exactly on an odd buffer; add_stop first seeds an empty buffer with the
configured lower bound and fails exactly when the (possibly seeded) buffer
has even length; each successful call appends the given boundary. -/
theorem claim7_builder (b : DateIntervalListBuilder) (d : Int) :
    (b.add_start d = none ↔ b.dates.length % 2 = 1)
    ∧ (∀ b', b.add_start d = some b' → b'.dates = b.dates ++ [d])
    ∧ (b.dates = [] → ∀ s0, b.start = some s0 → b.seedForStop = [s0])
    ∧ (b.add_stop d = none ↔ b.seedForStop.length % 2 = 0)
    ∧ (∀ b', b.add_stop d = some b' → b'.dates = b.seedForStop ++ [d]) := by
  refine ⟨?_, ?_, ?_, ?_, ?_⟩
  · unfold DateIntervalListBuilder.add_start
    split_ifs with hc
    · constructor
      · intro _
        omega
      · intro _
        rfl
    · constructor
      · intro hcon
        exact absurd hcon (by simp)
      · intro h1
        exact absurd (by omega) hc
  · intro b' hb'
    unfold DateIntervalListBuilder.add_start at hb'
    split_ifs at hb' with hc
    all_goals cases hb'
    all_goals rfl
  · intro hd0 s0 hs0
    unfold DateIntervalListBuilder.seedForStop
    rw [if_pos (by rw [hd0]; rfl), hs0]
  · unfold DateIntervalListBuilder.add_stop
    dsimp only
    split_ifs with hc
    · exact ⟨fun _ => hc, fun _ => rfl⟩
    · constructor
      · intro hcon
        exact absurd hcon (by simp)
      · intro h1
        exact absurd h1 hc
  · intro b' hb'
    unfold DateIntervalListBuilder.add_stop at hb'
    dsimp only at hb'
    split_ifs at hb' with hc
    all_goals cases hb'
    all_goals rfl

/-- C7 witness: a stop added to an empty buffer with a configured lower
bound seeds the bound first and then appends the stop. -/
theorem claim7_witness :
    DateIntervalListBuilder.add_stop ⟨some 15, some 20, []⟩ 16
        = some ⟨some 15, some 20, [15, 16]⟩
    ∧ (⟨some 15, some 20, [15, 16]⟩ : DateIntervalListBuilder).dates
        = DateIntervalListBuilder.seedForStop ⟨some 15, some 20, []⟩ ++ [16] :=
  ⟨by decide,
    (claim7_builder ⟨some 15, some 20, []⟩ 16).2.2.2.2
      ⟨some 15, some 20, [15, 16]⟩ (by decide)⟩

/-- C8: every constructed interval has start at or before stop: a reversed
pair is swapped by the constructor, and pad, union and intersect (which all
return through the constructor) preserve the invariant. -/
theorem claim8_constructor_invariant (t0 t1 : Int) (a b : DateInterval)
    (t : Int) (ep : Bool) :
    ((DateInterval.make t0 t1).start ≤ (DateInterval.make t0 t1).stop)
    ∧ (t1 < t0 → DateInterval.make t0 t1 = ⟨t1, t0⟩)
    ∧ (∀ p, a.pad t = some p → p.start ≤ p.stop)
    ∧ ((a.union b).start ≤ (a.union b).stop)
    ∧ (∀ c, a.intersect b ep = some c → c.start ≤ c.stop) := by
  refine ⟨make_start_le_stop t0 t1, make_of_gt, ?_, ?_, ?_⟩
  · intro p hp
    unfold DateInterval.pad at hp
    dsimp only at hp
    split_ifs at hp
    all_goals cases hp
    all_goals exact make_start_le_stop ..
  · unfold DateInterval.union
    exact make_start_le_stop ..
  · intro c hc
    unfold DateInterval.intersect at hc
    dsimp only at hc
    set u0 := if compareTo a.start b.start ≥ 0 then a.start else b.start
    set u1 := if compareTo a.stop b.stop ≤ 0 then a.stop else b.stop
    set cc : Int := if ep = true then 1 else 0
    by_cases hcase : compareTo u0 u1 < cc
    · rw [if_pos hcase] at hc
      simp only [Option.some_inj] at hc
      rw [← hc]
      exact make_start_le_stop ..
    · rw [if_neg hcase] at hc
      cases hc

/-- C8 witness: the constructor swaps a reversed pair. -/
theorem claim8_witness :
    (5 : Int) < 7 ∧ DateInterval.make 7 5 = ⟨5, 7⟩ :=
  ⟨by decide, (claim8_constructor_invariant 7 5 ⟨0, 1⟩ ⟨0, 1⟩ 0 false).2.1 (by decide)⟩

/-- C10: contains on the empty IntervalSet returns false for every query
(point or interval) and every inclusivity-flag combination; the scan loop
body never runs, so no error path is reachable. -/
theorem claim10_empty_contains (other : Endpoint) (si sc : Bool) :
    (DateIntervalList.mk []).contains other si sc = false := rfl

/-- C1 (code bug): on the reduced set {[0,10],[20,30]} the query 25 is
contained in the second stored interval, yet contains returns false: the
first branch of the scan fires when the first interval is strictly before
the query and aborts the scan, instead of the claimed policy of advancing
when the query is strictly after the candidate. -/
theorem claim1_contains_bug :
    (DateIntervalList.ofIntervals
        [DateInterval.make 0 10, DateInterval.make 20 30] true).dates = [0, 10, 20, 30]
    ∧ is_contained_in (.point 25) 20 30 true false = true
    ∧ (DateIntervalList.ofIntervals
        [DateInterval.make 0 10, DateInterval.make 20 30] true).contains
        (.point 25) true false = false := by decide

/-- C2 (code bug): subtracting the set {[0,10],[20,30]} from itself yields
{[10,20]} — the gap between its intervals — instead of the empty set,
because subtract is computed as the complement of the intersection over the
minuend's span. -/
theorem claim2_subtract_self_bug :
    list_subtract
        (DateIntervalList.ofIntervals [DateInterval.make 0 10, DateInterval.make 20 30] true)
        (DateIntervalList.ofIntervals [DateInterval.make 0 10, DateInterval.make 20 30] true)
      = some ⟨[10, 20]⟩
    ∧ (⟨[10, 20]⟩ : DateIntervalList) ≠ ⟨[]⟩ := by decide

/-- C3 (code bug): subtracting the empty set from {[0,10],[20,30]} yields
the single span {[0,30]} instead of the original set: the complement over
the minuend's span fills the internal gap. -/
theorem claim3_subtract_empty_bug :
    list_subtract
        (DateIntervalList.ofIntervals [DateInterval.make 0 10, DateInterval.make 20 30] true)
        ⟨[]⟩
      = some ⟨[0, 30]⟩
    ∧ (⟨[0, 30]⟩ : DateIntervalList)
        ≠ DateIntervalList.ofIntervals [DateInterval.make 0 10, DateInterval.make 20 30] true := by
  decide
